import Mathlib

/-!
Verification of the `prisma-fi/veToken` deployment script (`scripts/deploy.py`)
and of the weighted-lock ledger described in the repository specification.

The script is Python; numeric literals such as `3.5`, `0.9` or `0.1` are
IEEE-754 binary64 values, and expressions such as `max_pct * pct // 100`
are evaluated in binary64 arithmetic.  We embed that arithmetic exactly:
a Python float is represented by the rational number it denotes, held as an
unnormalised fraction (`Frac`), and each arithmetic step applies the
round-to-nearest, ties-to-even rounding of binary64.  All fractions built
here have a positive denominator.
-/

namespace VeToken

/-! ### Exact rational arithmetic without normalisation -/

/-- An unnormalised fraction `num / den`; every fraction constructed in this
development has `den > 0`. -/
structure Frac where
  num : Int
  den : Int
deriving DecidableEq, Repr

/-- Embed an integer as a fraction. -/
def Frac.ofInt (n : Int) : Frac := ⟨n, 1⟩

/-- Exact product of two fractions. -/
def Frac.mul (a b : Frac) : Frac := ⟨a.num * b.num, a.den * b.den⟩

/-- Exact difference of two fractions. -/
def Frac.sub (a b : Frac) : Frac := ⟨a.num * b.den - b.num * a.den, a.den * b.den⟩

/-- Exact quotient of two fractions (second argument positive in all uses). -/
def Frac.div (a b : Frac) : Frac := ⟨a.num * b.den, a.den * b.num⟩

/-- Floor of a fraction with positive denominator. -/
def Frac.floor (a : Frac) : Int := Int.fdiv a.num a.den

/-- The two fractions denote the same rational number (cross multiplication;
denominators are positive throughout this development). -/
def Frac.eqv (a b : Frac) : Prop := a.num * b.den = b.num * a.den

instance (a b : Frac) : Decidable (a.eqv b) := by
  unfold Frac.eqv; infer_instance

/-- Strict comparison of fractions with positive denominators. -/
def Frac.lt (a b : Frac) : Prop := a.num * b.den < b.num * a.den

instance (a b : Frac) : Decidable (a.lt b) := by
  unfold Frac.lt; infer_instance

/-! ### Exact model of binary64 (Python float) arithmetic -/

/-- Fuelled base-2 logarithm on `Nat` (enough fuel for every value reachable
in this development, all far below `2 ^ 200`). -/
def log2Aux : Nat → Nat → Nat
  | 0, _ => 0
  | fuel + 1, n => if n < 2 then 0 else log2Aux fuel (n / 2) + 1

/-- Floor of the base-2 logarithm of a natural number. -/
def log2N (n : Nat) : Nat := log2Aux 200 n

/-- `2 ^ k` for an integer `k`, as a fraction. -/
def pow2F (k : Int) : Frac :=
  if 0 ≤ k then ⟨((2 ^ k.toNat : Nat) : Int), 1⟩ else ⟨1, ((2 ^ (-k).toNat : Nat) : Int)⟩

/-- Round a fraction to the nearest integer, ties to even. -/
def rneF (x : Frac) : Int :=
  let f := x.floor
  let r := x.num - f * x.den
  if 2 * r < x.den then f
  else if x.den < 2 * r then f + 1
  else if f % 2 = 0 then f else f + 1

/-- The binary64 (IEEE-754 double) value nearest to the fraction `x`
(round-to-nearest, ties-to-even), as the exact rational it denotes.  Valid on
the positive normal non-overflowing range, which covers every value used by
the deploy script; nonpositive inputs map to zero (only the exact zero occurs).
Python parses a decimal literal such as `0.9` to `fp64 ⟨9, 10⟩`, and every
float arithmetic operation rounds its exact result through `fp64`. -/
def fp64 (x : Frac) : Frac :=
  if x.num ≤ 0 then Frac.ofInt 0
  else
    let e : Int := (log2N ((x.mul (pow2F 64)).floor.toNat) : Int) - 64
    (Frac.ofInt (rneF (x.mul (pow2F (52 - e))))).mul (pow2F (e - 52))

/-- C `fmod` for nonnegative operands: exact in binary64, so no rounding. -/
def fmodF (x w : Frac) : Frac := x.sub (w.mul (Frac.ofInt (x.div w).floor))

/-- Python float floor-division `x // w` for a nonnegative binary64 value `x`
and a positive binary64 value `w`, following CPython `float_divmod`:
`mod = fmod(x, w)` (exact), `div = (x - mod) / w` (two rounded binary64
operations), then the floor of `div`, corrected upward when rounding in the
division left `div` more than one half below the true quotient. -/
def pyFloorDiv (x w : Frac) : Frac :=
  let m := fmodF x w
  let dv := fp64 ((fp64 (x.sub m)).div w)
  let fd := Frac.ofInt dv.floor
  if (Frac.mk 1 2).lt (fp64 (dv.sub fd)) then Frac.ofInt (dv.floor + 1) else fd

/-- Python `int * float` multiplication: the integer converts exactly to
binary64 (every integer in the script is far below `2 ^ 53`) and the product
rounds. -/
def pyMulIntFloat (n : Nat) (x : Frac) : Frac := fp64 ((Frac.ofInt (n : Int)).mul x)

/-! ### Addresses and Python values

The script is brownie deployment glue.  A contract object is identified here
by its address. -/

/-- Modelled from the spec: the deploy script's precomputed-address pattern —
`deployer.get_deployment_address(nonce)` (brownie, not part of `src/`) is a
deterministic function of the deployer account and of that account's nonce,
and each contract creation consumes exactly one nonce.  Addresses are either
literal constants (`lit`, holding the numeric value of the hex string) or
contract-creation addresses (`create`). -/
inductive Addr where
  | lit (value : Nat)
  | create (deployer : Nat) (nonce : Nat)
deriving DecidableEq, Repr

/-- The address at which a contract created by `deployer` at the given
account nonce is deployed. -/
def get_deployment_address (deployer nonce : Nat) : Addr :=
  Addr.create deployer nonce

/-- A Python value passed as a constructor argument by the script. -/
inductive PyVal where
  | int (n : Nat)
  | flt (x : Frac)
  | str (s : String)
  | addr (a : Addr)
  | bool (b : Bool)
  | pair (a b : PyVal)
  | list (xs : List PyVal)

/-! ### Configuration constants of `scripts/deploy.py` -/

/-- Line 15: `"0x0000000000000000000000000000000000000000"` (the zero address). -/
def FEE_RECEIVER : Addr := Addr.lit 0

/-- Line 16: `"0x0000000000000000000000000000000000000000"` (the zero address). -/
def GUARDIAN : Addr := Addr.lit 0

/-- Line 17: `10 ** 18`. -/
def LOCK_TO_TOKEN_RATIO : Nat := 10 ^ 18

/-- Line 18: the float literal `0.1`. -/
def MIN_CREATE_PROPOSAL_PCT : Frac := fp64 ⟨1, 10⟩

/-- Line 19: `30`. -/
def PASSING_PCT : Nat := 30

/-- Line 21. -/
def TOKEN_NAME : String := "Valueless Governance Token"

/-- Line 22. -/
def TOKEN_SYMBOL : String := "VGT"

/-- Line 23: `100_000_000 * 10 ** 18`. -/
def TOKEN_TOTAL_SUPPLY : Nat := 100000000 * 10 ^ 18

/-- Line 29: `86400 * 7`. -/
def EPOCH_LENGTH : Nat := 86400 * 7

/-- Line 34: `86400 * 3.5`, an `int * float` product (the float `302400.0`). -/
def START_OFFSET : Frac := pyMulIntFloat 86400 (fp64 ⟨35, 10⟩)

/-- Line 41: the empty list of `(address, amount)` vault allowances. -/
def ALLOWANCES : List (Addr × Nat) := []

/-- Line 44: `26`. -/
def INITIAL_LOCK_DURATION : Nat := 26

/-- Line 47: `True`. -/
def PENALTY_WITHDRAWAL_ENABLED : Bool := true

/-- Line 50: `2`. -/
def LOCK_EPOCHS_DECAY_RATE : Nat := 2

/-- Line 54: `[1_000_000 * 10 ** 18, 1_000_000 * 10 ** 18]`. -/
def FIXED_INITIAL_AMOUNTS : List Nat := [1000000 * 10 ^ 18, 1000000 * 10 ^ 18]

/-- Line 58: the float literal `1.00`. -/
def INITIAL_PER_EPOCH_PCT : Frac := fp64 ⟨100, 100⟩

/-- Line 62: `[(13, 0.9), (26, 0.8), (39, 0.7), (52, 0.5)]` with float
percentages. -/
def EPOCH_PCT_SCHEDULE : List (Nat × Frac) :=
  [(13, fp64 ⟨9, 10⟩), (26, fp64 ⟨8, 10⟩), (39, fp64 ⟨7, 10⟩), (52, fp64 ⟨5, 10⟩)]

/-- Line 67: `2`. -/
def BOOST_GRACE_EPOCHS : Nat := 2

/-- Line 70: `2`. -/
def MAX_BOOST_MULTIPLIER : Nat := 2

/-- Line 77: `100`. -/
def MAX_BOOSTABLE_PCT : Nat := 100

/-- Line 80: `100`. -/
def DECAY_BOOST_PCT : Nat := 100

/-- Modelled from the spec: the `MAX_PCT` constant of the `IncentiveVoting`
contract (read by the script as `voter.MAX_PCT()`; the contract source is not
part of `src/`).  The spec fixes the percentage scale at parts-per-10000. -/
def MAX_PCT : Nat := 10000

/-- Line 127: `max_pct = voter.MAX_PCT()`. -/
def max_pct : Nat := MAX_PCT

/-- Line 128: `[(i[0], max_pct * i[1] // 100) for i in EPOCH_PCT_SCHEDULE[::-1]]`. -/
def pct_schedule : List (Nat × Frac) :=
  EPOCH_PCT_SCHEDULE.reverse.map fun i =>
    (i.1, pyFloorDiv (pyMulIntFloat max_pct i.2) (Frac.ofInt 100))

/-- Line 135: `max_pct * INITIAL_PER_EPOCH_PCT // 100` (an argument of
`EmissionSchedule.deploy`). -/
def initial_pct_arg : Frac :=
  pyFloorDiv (pyMulIntFloat max_pct INITIAL_PER_EPOCH_PCT) (Frac.ofInt 100)

/-- Line 140: `max_pct * MIN_CREATE_PROPOSAL_PCT // 100`. -/
def create_pct : Frac :=
  pyFloorDiv (pyMulIntFloat max_pct MIN_CREATE_PROPOSAL_PCT) (Frac.ofInt 100)

/-- Line 141: `max_pct * PASSING_PCT // 100` (pure integer arithmetic). -/
def pass_pct : Nat := max_pct * PASSING_PCT / 100

/-! ### The `main` function (lines 83–144) -/

/-- One contract deployment performed by `main`: the contract's name, the
address it lands at, and the constructor arguments (the trailing
`{"from": deployer}` transaction dict is the sender, recorded in the
`create` address, not a constructor argument). -/
structure Deployment where
  name : String
  addr : Addr
  args : List PyVal

/-- Everything observable about one run of `main`: the eight precomputed
addresses of lines 88–95 in order, the eight deployments in the order they
are performed, and the returned triple of line 144. -/
structure MainResult where
  precomputed : List Addr
  deployments : List Deployment
  ret : Addr × Addr × Addr

/-- The body of `main` (lines 83–144) for a deployer account whose nonce at
entry is `nonce`.  Python's rebinding of `core`, `token`, … from precomputed
address to deployed contract is mirrored by `let` shadowing; each deployment
consumes one deployer nonce. -/
def main (deployer nonce : Nat) : MainResult :=
  -- lines 88–95: precompute the eight addresses from consecutive nonces
  let core := get_deployment_address deployer nonce
  let token := get_deployment_address deployer (nonce + 1)
  let locker := get_deployment_address deployer (nonce + 2)
  let voter := get_deployment_address deployer (nonce + 3)
  let vault := get_deployment_address deployer (nonce + 4)
  let boost := get_deployment_address deployer (nonce + 5)
  let emission_schedule := get_deployment_address deployer (nonce + 6)
  let admin := get_deployment_address deployer (nonce + 7)
  let precomputed := [core, token, locker, voter, vault, boost, emission_schedule, admin]
  -- line 97
  let core := get_deployment_address deployer nonce
  let dCore : Deployment :=
    ⟨"CoreOwner", core,
      [.addr admin, .addr FEE_RECEIVER, .int (86400 * 7), .int (86400 * 4)]⟩
  -- lines 98–100
  let token := get_deployment_address deployer (nonce + 1)
  let dToken : Deployment :=
    ⟨"GovToken", token,
      [.str TOKEN_NAME, .str TOKEN_SYMBOL, .addr vault, .addr locker,
        .int TOKEN_TOTAL_SUPPLY]⟩
  -- lines 101–103
  let locker := get_deployment_address deployer (nonce + 2)
  let dLocker : Deployment :=
    ⟨"TokenLocker", locker,
      [.addr core, .addr token, .addr voter, .int LOCK_TO_TOKEN_RATIO,
        .bool PENALTY_WITHDRAWAL_ENABLED]⟩
  -- line 104
  let voter := get_deployment_address deployer (nonce + 3)
  let dVoter : Deployment :=
    ⟨"IncentiveVoting", voter, [.addr core, .addr locker, .addr vault]⟩
  -- lines 105–116
  let vault := get_deployment_address deployer (nonce + 4)
  let dVault : Deployment :=
    ⟨"Vault", vault,
      [.addr core, .addr token, .addr locker, .addr voter,
        .addr emission_schedule, .addr boost, .int INITIAL_LOCK_DURATION,
        .list (FIXED_INITIAL_AMOUNTS.map PyVal.int),
        .list (ALLOWANCES.map fun p => PyVal.pair (.addr p.1) (.int p.2))]⟩
  -- lines 117–125
  let boost := get_deployment_address deployer (nonce + 5)
  let dBoost : Deployment :=
    ⟨"BoostCalculator", boost,
      [.addr core, .addr locker, .int BOOST_GRACE_EPOCHS,
        .int MAX_BOOST_MULTIPLIER, .int MAX_BOOSTABLE_PCT, .int DECAY_BOOST_PCT]⟩
  -- lines 129–138
  let emission_schedule := get_deployment_address deployer (nonce + 6)
  let dEmission : Deployment :=
    ⟨"EmissionSchedule", emission_schedule,
      [.addr core, .addr voter, .addr vault, .int INITIAL_LOCK_DURATION,
        .int LOCK_EPOCHS_DECAY_RATE, .flt initial_pct_arg,
        .list (pct_schedule.map fun i => PyVal.pair (.int i.1) (.flt i.2))]⟩
  -- line 142
  let admin := get_deployment_address deployer (nonce + 7)
  let dAdmin : Deployment :=
    ⟨"AdminVoting", admin,
      [.addr core, .addr locker, .addr GUARDIAN, .flt create_pct, .int pass_pct]⟩
  -- line 144: `return locker, voter, admin`
  { precomputed := precomputed
    deployments := [dCore, dToken, dLocker, dVoter, dVault, dBoost, dEmission, dAdmin]
    ret := (locker, voter, admin) }

/-- The address of the `i`-th deployment of a run, if any. -/
def deployedAddr (r : MainResult) (i : Nat) : Option Addr :=
  (r.deployments[i]?).map Deployment.addr

/-- The `j`-th constructor argument of the `i`-th deployment of a run, if any. -/
def argOf (r : MainResult) (i j : Nat) : Option PyVal :=
  match r.deployments[i]? with
  | some d => d.args[j]?
  | none => none

/-- The name of the `i`-th deployment of a run, if any. -/
def deployedName (r : MainResult) (i : Nat) : Option String :=
  (r.deployments[i]?).map Deployment.name

/-- The exact floor `MAX_PCT * p / 100` with the percent `p` taken as an
exact rational — the spec's consensus-critical floor-division semantics,
against which the script's binary64 arithmetic is compared. -/
def exact_pct_scaled (p : Frac) : Int :=
  (((Frac.ofInt (MAX_PCT : Int)).mul p).div (Frac.ofInt 100)).floor

/-- Modelled from the spec: the fixed-amount phase of
`EmissionSchedule.emissionsForEpoch` (the contract source is not part of
`src/`) — if `epoch` is less than the length of the fixed-initial-amounts
list, that list's entry is emitted; otherwise the percentage schedule
applies (`none` here). -/
def fixedPhaseAmount (amounts : List Nat) (epoch : Nat) : Option Nat :=
  amounts[epoch]?

/-! ### Theorems about the deploy script -/

/-- C1: the eight component addresses are precomputed from eight consecutive
deployer nonces, the eight contracts are deployed in exactly that order (so
the `i`-th deployment lands at the `i`-th precomputed address), and every
forward-reference address passed to an earlier constructor (vault and locker
into GovToken, voter into TokenLocker, vault into IncentiveVoting,
emission_schedule and boost into Vault, and also admin into CoreOwner)
equals the address at which that component is subsequently deployed. -/
theorem main_precomputes_then_deploys_in_order (deployer nonce : Nat) :
    (main deployer nonce).precomputed =
      (List.range 8).map (fun k => get_deployment_address deployer (nonce + k))
    ∧ (main deployer nonce).deployments.map Deployment.name =
      ["CoreOwner", "GovToken", "TokenLocker", "IncentiveVoting", "Vault",
        "BoostCalculator", "EmissionSchedule", "AdminVoting"]
    ∧ (main deployer nonce).deployments.map Deployment.addr =
      (main deployer nonce).precomputed
    ∧ argOf (main deployer nonce) 1 2 = (deployedAddr (main deployer nonce) 4).map PyVal.addr
    ∧ argOf (main deployer nonce) 1 3 = (deployedAddr (main deployer nonce) 2).map PyVal.addr
    ∧ argOf (main deployer nonce) 2 2 = (deployedAddr (main deployer nonce) 3).map PyVal.addr
    ∧ argOf (main deployer nonce) 3 2 = (deployedAddr (main deployer nonce) 4).map PyVal.addr
    ∧ argOf (main deployer nonce) 4 4 = (deployedAddr (main deployer nonce) 6).map PyVal.addr
    ∧ argOf (main deployer nonce) 4 5 = (deployedAddr (main deployer nonce) 5).map PyVal.addr
    ∧ argOf (main deployer nonce) 0 0 = (deployedAddr (main deployer nonce) 7).map PyVal.addr :=
  ⟨rfl, rfl, rfl, rfl, rfl, rfl, rfl, rfl, rfl, rfl⟩

set_option maxRecDepth 16384 in
/-- C2: every percentage-type constructor argument computed by `main` — the
four emission-schedule entries, the initial per-epoch percentage, the
proposal-creation threshold and the proposal-passing threshold — equals, as
a rational number, the exact floor of `MAX_PCT * percent / 100` with the
configured percent taken as an exact rational (`0.5 = 5/10`, `0.7 = 7/10`,
`0.8 = 8/10`, `0.9 = 9/10`, `1.00 = 1`, `0.1 = 1/10`, `30`), despite being
computed in binary64 floating point. -/
theorem pct_args_are_exact_floors :
    pct_schedule.length = 4
    ∧ Frac.eqv (pct_schedule.getD 0 (0, Frac.ofInt 0)).2
        (Frac.ofInt (exact_pct_scaled ⟨5, 10⟩))
    ∧ Frac.eqv (pct_schedule.getD 1 (0, Frac.ofInt 0)).2
        (Frac.ofInt (exact_pct_scaled ⟨7, 10⟩))
    ∧ Frac.eqv (pct_schedule.getD 2 (0, Frac.ofInt 0)).2
        (Frac.ofInt (exact_pct_scaled ⟨8, 10⟩))
    ∧ Frac.eqv (pct_schedule.getD 3 (0, Frac.ofInt 0)).2
        (Frac.ofInt (exact_pct_scaled ⟨9, 10⟩))
    ∧ Frac.eqv initial_pct_arg (Frac.ofInt (exact_pct_scaled ⟨1, 1⟩))
    ∧ Frac.eqv create_pct (Frac.ofInt (exact_pct_scaled ⟨1, 10⟩))
    ∧ (pass_pct : Int) = exact_pct_scaled (Frac.ofInt 30) := by
  refine ⟨rfl, ?_, ?_, ?_, ?_, ?_, ?_, ?_⟩ <;> decide

/-- C3: the percentage schedule passed to `EmissionSchedule.deploy` is the
configured `EPOCH_PCT_SCHEDULE` reversed, its epoch thresholds are
`52, 39, 26, 13` in that order, and that sequence is strictly descending. -/
theorem pct_schedule_reversed_descending (deployer nonce : Nat) :
    pct_schedule = EPOCH_PCT_SCHEDULE.reverse.map
      (fun i => (i.1, pyFloorDiv (pyMulIntFloat max_pct i.2) (Frac.ofInt 100)))
    ∧ pct_schedule.map Prod.fst = [52, 39, 26, 13]
    ∧ List.Pairwise (fun a b => b < a) (pct_schedule.map Prod.fst)
    ∧ argOf (main deployer nonce) 6 6 =
      some (.list (pct_schedule.map fun i => PyVal.pair (.int i.1) (.flt i.2))) := by
  refine ⟨rfl, by decide, by decide, rfl⟩

/-- C5 (evaluating the code at the divergence): `main` deploys `CoreOwner`
with epoch length `86400 * 7` — which does equal `EPOCH_LENGTH` — but with
start offset `86400 * 4 = 345600`, which is not the module constant
`START_OFFSET = 86400 * 3.5 = 302400`; the constant is defined (and
documented as the value to subtract when computing the start time) yet
unused. -/
theorem core_owner_start_offset_neq_constant (deployer nonce : Nat) :
    argOf (main deployer nonce) 0 2 = some (.int EPOCH_LENGTH)
    ∧ argOf (main deployer nonce) 0 3 = some (.int (86400 * 4))
    ∧ ¬ Frac.eqv (Frac.ofInt ((86400 * 4 : Nat) : Int)) START_OFFSET
    ∧ Frac.eqv START_OFFSET (Frac.ofInt 302400) :=
  ⟨rfl, rfl, by decide, by decide⟩

/-- C6: `main` returns the triple (locker, voter, admin) — the addresses of
the `TokenLocker`, `IncentiveVoting` and `AdminVoting` deployments, in that
order. -/
theorem main_returns_locker_voter_admin (deployer nonce : Nat) :
    some (main deployer nonce).ret.1 = deployedAddr (main deployer nonce) 2
    ∧ some (main deployer nonce).ret.2.1 = deployedAddr (main deployer nonce) 3
    ∧ some (main deployer nonce).ret.2.2 = deployedAddr (main deployer nonce) 7
    ∧ deployedName (main deployer nonce) 2 = some "TokenLocker"
    ∧ deployedName (main deployer nonce) 3 = some "IncentiveVoting"
    ∧ deployedName (main deployer nonce) 7 = some "AdminVoting" :=
  ⟨rfl, rfl, rfl, rfl, rfl, rfl⟩

/-- C7: `main` is deterministic — two runs started from identical deployer
state (same account, same nonce) produce identical precomputed addresses,
identical deployments (hence identical constructor arguments) and an
identical returned triple. -/
theorem main_deterministic (d n d2 n2 : Nat) (hd : d = d2) (hn : n = n2) :
    (main d n).precomputed = (main d2 n2).precomputed
    ∧ (main d n).deployments = (main d2 n2).deployments
    ∧ (main d n).ret = (main d2 n2).ret := by
  subst hd; subst hn; exact ⟨rfl, rfl, rfl⟩

/-- Witness for C7 at deployer 0, nonce 0. -/
theorem main_deterministic_witness :
    (main 0 0).precomputed = (main 0 0).precomputed
    ∧ (main 0 0).deployments = (main 0 0).deployments
    ∧ (main 0 0).ret = (main 0 0).ret :=
  main_deterministic 0 0 0 0 rfl rfl

/-- C8: the fixed-initial-amounts list passed to `Vault.deploy` has exactly
two entries, each `1_000_000 * 10 ^ 18` base units, so exactly epochs 0 and 1
fall in the fixed-amount emission phase (each emitting 1,000,000 tokens)
before the percentage schedule takes effect. -/
theorem fixed_initial_amounts_two_epochs (deployer nonce : Nat) :
    FIXED_INITIAL_AMOUNTS = [1000000 * 10 ^ 18, 1000000 * 10 ^ 18]
    ∧ FIXED_INITIAL_AMOUNTS.length = 2
    ∧ argOf (main deployer nonce) 4 7 =
      some (.list (FIXED_INITIAL_AMOUNTS.map PyVal.int))
    ∧ (∀ e : Nat, (fixedPhaseAmount FIXED_INITIAL_AMOUNTS e).isSome ↔ e < 2)
    ∧ fixedPhaseAmount FIXED_INITIAL_AMOUNTS 0 = some (1000000 * 10 ^ 18)
    ∧ fixedPhaseAmount FIXED_INITIAL_AMOUNTS 1 = some (1000000 * 10 ^ 18) := by
  refine ⟨rfl, rfl, rfl, ?_, rfl, rfl⟩
  intro e
  rcases e with _ | _ | e
  · simp [fixedPhaseAmount, FIXED_INITIAL_AMOUNTS]
  · simp [fixedPhaseAmount, FIXED_INITIAL_AMOUNTS]
  · simp only [fixedPhaseAmount, FIXED_INITIAL_AMOUNTS, List.getElem?_cons_succ,
      List.getElem?_nil, Option.isSome_none, Bool.false_eq_true, false_iff]
    omega

/-- C9: as shipped, `main` passes the empty list as the allowances argument
of `Vault.deploy`: there are no (address, amount) token grants at all. -/
theorem allowances_empty_at_deploy (deployer nonce : Nat) :
    ALLOWANCES = ([] : List (Addr × Nat))
    ∧ argOf (main deployer nonce) 4 8 = some (.list []) :=
  ⟨rfl, rfl⟩

/-- C10: as shipped, `main` deploys `AdminVoting` with the guardian argument
equal to the zero address and `CoreOwner` with the fee receiver argument
equal to the zero address. -/
theorem guardian_and_fee_receiver_zero (deployer nonce : Nat) :
    GUARDIAN = Addr.lit 0
    ∧ FEE_RECEIVER = Addr.lit 0
    ∧ argOf (main deployer nonce) 7 2 = some (.addr (Addr.lit 0))
    ∧ argOf (main deployer nonce) 0 1 = some (.addr (Addr.lit 0)) :=
  ⟨rfl, rfl, rfl, rfl⟩

/-! ### The WeightedLockLedger (TokenLocker analogue)

The `TokenLocker` contract source is not part of `src/`; the ledger below is
modelled from the specification (§3 data model, §4.2 operations, §9 design
notes): per-account lock positions of `(amount, epochsToUnlock)`, per-account
and global weight histories updated at the current epoch by every
lock-affecting operation, and per-epoch decay implemented through a
decay-per-epoch index (`acctRate` / `totalRate`) rather than per-epoch
recomputation. -/

/-- Modelled from the spec: a LockPosition — an `amount` of base token units
locked for `epochsToUnlock` further epochs; its weight is
`amount * epochsToUnlock`, zero once fully decayed. -/
structure LockPos where
  amount : Nat
  epochsToUnlock : Nat
deriving DecidableEq, Repr

/-- The weight contributed by one position. -/
def posWeight (p : LockPos) : Nat := p.amount * p.epochsToUnlock

/-- The per-epoch weight decay contributed by one position: its amount while
still locked, nothing once fully decayed. -/
def posRate (p : LockPos) : Nat := if p.epochsToUnlock = 0 then 0 else p.amount

/-- The amount of a position that stops decaying at the next epoch boundary
(the position expires there). -/
def posExpiring (p : LockPos) : Nat := if p.epochsToUnlock = 1 then p.amount else 0

/-- One epoch of decay: `epochsToUnlock` decreases by one, never below zero. -/
def decayPos (p : LockPos) : LockPos := ⟨p.amount, p.epochsToUnlock - 1⟩

/-- Sum of `f` over a list of positions. -/
def posSum (l : List LockPos) (f : LockPos → Nat) : Nat := (l.map f).sum

/-- Sum of `f` over a list of accounts. -/
def sumBy (l : List Nat) (f : Nat → Nat) : Nat := (l.map f).sum

/-- Configuration of the ledger: the maximum number of epochs a position may
be locked for, and whether penalised early withdrawal is enabled. -/
structure LockCfg where
  maxLockEpochs : Nat
  penaltyEnabled : Bool

/-- Modelled from the spec (§7): domain-scoped error kinds of the ledger. -/
inductive LockErr where
  | InvalidDuration
  | InvalidExtension
  | InsufficientBalance
  | FutureEpoch
  | NotUnlocked
  | InvalidPosition
deriving DecidableEq, Repr

/-- Modelled from the spec: the ledger state.  `pos` holds each account's
lock positions; `acctHist a e` / `totalHist e` are the account and global
weight-history checkpoints for epoch `e ≤ curEpoch` (the account history is
updated per account, the global history incrementally by the same deltas —
the invariant that they agree is exactly claim C4); `acctRate` / `totalRate`
are the decay-per-epoch indices; `balances` models the external token
custody. `accounts` lists every account that ever locked. -/
structure LockState where
  curEpoch : Nat
  accounts : List Nat
  pos : Nat → List LockPos
  acctRate : Nat → Nat
  totalRate : Nat
  acctHist : Nat → Nat → Nat
  totalHist : Nat → Nat
  balances : Nat → Nat

/-- The ledger at epoch 0 with no locks and the given token balances. -/
def initState (bal : Nat → Nat) : LockState :=
  ⟨0, [], fun _ => [], fun _ => 0, 0, fun _ _ => 0, fun _ => 0, bal⟩

/-- Modelled from the spec (§4.2): `lock(account, amount, epochs)` creates a
LockPosition.  Fails with `InvalidDuration` if `epochs` is zero or exceeds
the configured maximum, with `InsufficientBalance` if the account cannot
supply `amount` tokens.  Side effect: increases the account and global weight
histories at the current epoch by `amount * epochs` and raises the decay
indices by `amount`. -/
def lock (cfg : LockCfg) (st : LockState) (a amt epochs : Nat) :
    Except LockErr LockState :=
  if epochs = 0 ∨ cfg.maxLockEpochs < epochs then .error .InvalidDuration
  else if st.balances a < amt then .error .InsufficientBalance
  else .ok
    { curEpoch := st.curEpoch
      accounts := if a ∈ st.accounts then st.accounts else a :: st.accounts
      pos := fun x => if x = a then LockPos.mk amt epochs :: st.pos x else st.pos x
      acctRate := fun x => if x = a then st.acctRate x + amt else st.acctRate x
      totalRate := st.totalRate + amt
      acctHist := fun x e =>
        if x = a ∧ e = st.curEpoch then st.acctHist x e + amt * epochs
        else st.acctHist x e
      totalHist := fun e =>
        if e = st.curEpoch then st.totalHist e + amt * epochs else st.totalHist e
      balances := fun x => if x = a then st.balances x - amt else st.balances x }

/-- Modelled from the spec (§4.2): `extendLock(account, positionRef,
newEpochs)` fails with `InvalidExtension` if `newEpochs` does not exceed the
position's current remaining epochs (or exceeds the maximum; a dangling
reference fails with `InvalidPosition`).  The weight histories at the current
epoch grow by `amount * (newEpochs - remaining)`. -/
def extendLock (cfg : LockCfg) (st : LockState) (a i newEpochs : Nat) :
    Except LockErr LockState :=
  match (st.pos a)[i]? with
  | none => .error .InvalidPosition
  | some p =>
    if newEpochs ≤ p.epochsToUnlock ∨ cfg.maxLockEpochs < newEpochs then
      .error .InvalidExtension
    else .ok
      { curEpoch := st.curEpoch
        accounts := st.accounts
        pos := fun x =>
          if x = a then (st.pos x).set i ⟨p.amount, newEpochs⟩ else st.pos x
        acctRate := fun x =>
          if x = a then st.acctRate x + (p.amount - posRate p) else st.acctRate x
        totalRate := st.totalRate + (p.amount - posRate p)
        acctHist := fun x e =>
          if x = a ∧ e = st.curEpoch then
            st.acctHist x e + p.amount * (newEpochs - p.epochsToUnlock)
          else st.acctHist x e
        totalHist := fun e =>
          if e = st.curEpoch then
            st.totalHist e + p.amount * (newEpochs - p.epochsToUnlock)
          else st.totalHist e
        balances := st.balances }

/-- Modelled from the spec (§4.2): `withdraw(account, positionRef)` — free
once the position has fully decayed (weight already zero, histories
untouched); before full decay it is permitted only when penalty withdrawal is
enabled, forfeiting a penalty proportional to the remaining epochs and
removing the position's remaining weight from the current-epoch histories.
Returns the amount paid out. -/
def withdraw (cfg : LockCfg) (st : LockState) (a i : Nat) :
    Except LockErr (Nat × LockState) :=
  match (st.pos a)[i]? with
  | none => .error .InvalidPosition
  | some p =>
    if p.epochsToUnlock = 0 then
      .ok (p.amount,
        { st with
          pos := fun x => if x = a then (st.pos x).eraseIdx i else st.pos x
          balances := fun x =>
            if x = a then st.balances x + p.amount else st.balances x })
    else if cfg.penaltyEnabled then
      .ok (p.amount - p.amount * p.epochsToUnlock / cfg.maxLockEpochs,
        { curEpoch := st.curEpoch
          accounts := st.accounts
          pos := fun x => if x = a then (st.pos x).eraseIdx i else st.pos x
          acctRate := fun x =>
            if x = a then st.acctRate x - p.amount else st.acctRate x
          totalRate := st.totalRate - p.amount
          acctHist := fun x e =>
            if x = a ∧ e = st.curEpoch then st.acctHist x e - posWeight p
            else st.acctHist x e
          totalHist := fun e =>
            if e = st.curEpoch then st.totalHist e - posWeight p
            else st.totalHist e
          balances := fun x =>
            if x = a then
              st.balances x + (p.amount - p.amount * p.epochsToUnlock / cfg.maxLockEpochs)
            else st.balances x })
    else .error .NotUnlocked

/-- Modelled from the spec (§3, §9): the epoch-decay operation.  The epoch
counter advances, every position decays by one epoch, and the new epoch's
checkpoints are written from the previous ones minus the decay indices; the
indices themselves drop by the amounts expiring at this boundary. -/
def advanceEpoch (st : LockState) : LockState :=
  { curEpoch := st.curEpoch + 1
    accounts := st.accounts
    pos := fun x => (st.pos x).map decayPos
    acctRate := fun x => st.acctRate x - posSum (st.pos x) posExpiring
    totalRate := st.totalRate - sumBy st.accounts (fun x => posSum (st.pos x) posExpiring)
    acctHist := fun x e =>
      if e = st.curEpoch + 1 then st.acctHist x st.curEpoch - st.acctRate x
      else st.acctHist x e
    totalHist := fun e =>
      if e = st.curEpoch + 1 then st.totalHist st.curEpoch - st.totalRate
      else st.totalHist e
    balances := st.balances }

/-- Modelled from the spec (§4.2): `weightAt(account, epoch)` — a read-only
query against the checkpoint history, failing with `FutureEpoch` beyond the
current epoch. -/
def weightAt (st : LockState) (a e : Nat) : Except LockErr Nat :=
  if st.curEpoch < e then .error .FutureEpoch else .ok (st.acctHist a e)

/-- Modelled from the spec (§4.2): `totalWeightAt(epoch)`. -/
def totalWeightAt (st : LockState) (e : Nat) : Except LockErr Nat :=
  if st.curEpoch < e then .error .FutureEpoch else .ok (st.totalHist e)

/-- One successful ledger operation: a lock, an extension, a withdrawal, or
one epoch of decay. -/
inductive Step (cfg : LockCfg) : LockState → LockState → Prop where
  | lock (st st2 : LockState) (a amt epochs : Nat)
      (h : VeToken.lock cfg st a amt epochs = .ok st2) : Step cfg st st2
  | extend (st st2 : LockState) (a i newEpochs : Nat)
      (h : VeToken.extendLock cfg st a i newEpochs = .ok st2) : Step cfg st st2
  | withdraw (st st2 : LockState) (a i ret : Nat)
      (h : VeToken.withdraw cfg st a i = .ok (ret, st2)) : Step cfg st st2
  | advance (st : LockState) : Step cfg st (advanceEpoch st)

/-- States reachable from the initial ledger by successful operations. -/
inductive Reachable (cfg : LockCfg) (bal : Nat → Nat) : LockState → Prop where
  | init : Reachable cfg bal (initState bal)
  | step (st st2 : LockState) (h1 : Reachable cfg bal st)
      (h2 : Step cfg st st2) : Reachable cfg bal st2

/-- The ledger invariant: the account list is duplicate-free and supports all
positions and history, each account's current checkpoint and decay index
agree with its positions, and the global checkpoint and index are the sums of
the per-account ones at every recorded epoch. -/
structure LedgerInv (st : LockState) : Prop where
  nodup : st.accounts.Nodup
  unknown_pos : ∀ a, a ∉ st.accounts → st.pos a = []
  unknown_hist : ∀ a, a ∉ st.accounts → ∀ e, st.acctHist a e = 0
  hist_cur : ∀ a, st.acctHist a st.curEpoch = posSum (st.pos a) posWeight
  rate_eq : ∀ a, st.acctRate a = posSum (st.pos a) posRate
  totalRate_eq : st.totalRate = sumBy st.accounts st.acctRate
  total_eq : ∀ e, e ≤ st.curEpoch →
    st.totalHist e = sumBy st.accounts (fun a => st.acctHist a e)

/-! ### Arithmetic lemmas about position and account sums -/

theorem posSum_cons (p : LockPos) (l : List LockPos) (f : LockPos → Nat) :
    posSum (p :: l) f = f p + posSum l f := rfl

theorem sumBy_cons (a : Nat) (l : List Nat) (f : Nat → Nat) :
    sumBy (a :: l) f = f a + sumBy l f := rfl

theorem sumBy_congr {l : List Nat} {f g : Nat → Nat} (h : ∀ a ∈ l, f a = g a) :
    sumBy l f = sumBy l g := by
  induction l with
  | nil => rfl
  | cons a l ih =>
      rw [sumBy_cons, sumBy_cons, h a (List.mem_cons_self a l),
        ih (fun x hx => h x (List.mem_cons_of_mem a hx))]

theorem le_sumBy {l : List Nat} {f : Nat → Nat} {a : Nat} (h : a ∈ l) :
    f a ≤ sumBy l f := by
  induction l with
  | nil => cases h
  | cons b l ih =>
      rw [sumBy_cons]
      rcases List.mem_cons.mp h with h1 | h1
      · subst h1; omega
      · have := ih h1; omega

theorem sumBy_sub {l : List Nat} {f g : Nat → Nat} (h : ∀ a ∈ l, g a ≤ f a) :
    sumBy l (fun a => f a - g a) = sumBy l f - sumBy l g
    ∧ sumBy l g ≤ sumBy l f := by
  induction l with
  | nil => exact ⟨rfl, Nat.le_refl 0⟩
  | cons a l ih =>
      have ha := h a (List.mem_cons_self a l)
      obtain ⟨ih1, ih2⟩ := ih (fun x hx => h x (List.mem_cons_of_mem a hx))
      rw [sumBy_cons, sumBy_cons, sumBy_cons]
      constructor <;> omega

theorem sumBy_update_add {l : List Nat} {f : Nat → Nat} {a d : Nat}
    (hn : l.Nodup) (ha : a ∈ l) :
    sumBy l (fun x => if x = a then f x + d else f x) = sumBy l f + d := by
  induction l with
  | nil => cases ha
  | cons b l ih =>
      have hb : b ∉ l := (List.nodup_cons.mp hn).1
      rw [sumBy_cons, sumBy_cons]
      rcases List.mem_cons.mp ha with h1 | h1
      · subst h1
        have hrw : sumBy l (fun x => if x = a then f x + d else f x) = sumBy l f :=
          sumBy_congr fun x hx => if_neg (fun hxa => hb (by rwa [hxa] at hx))
        rw [if_pos rfl, hrw]
        omega
      · have hne : b ≠ a := fun h2 => hb (h2 ▸ h1)
        rw [if_neg hne, ih (List.nodup_cons.mp hn).2 h1]
        omega

theorem sumBy_update_sub {l : List Nat} {f : Nat → Nat} {a d : Nat}
    (hn : l.Nodup) (ha : a ∈ l) (hd : d ≤ f a) :
    sumBy l (fun x => if x = a then f x - d else f x) = sumBy l f - d := by
  induction l with
  | nil => cases ha
  | cons b l ih =>
      have hb : b ∉ l := (List.nodup_cons.mp hn).1
      rw [sumBy_cons, sumBy_cons]
      rcases List.mem_cons.mp ha with h1 | h1
      · subst h1
        have hrw : sumBy l (fun x => if x = a then f x - d else f x) = sumBy l f :=
          sumBy_congr fun x hx => if_neg (fun hxa => hb (by rwa [hxa] at hx))
        rw [if_pos rfl, hrw]
        omega
      · have hne : b ≠ a := fun h2 => hb (h2 ▸ h1)
        rw [if_neg hne, ih (List.nodup_cons.mp hn).2 h1]
        have := le_sumBy (f := f) h1
        omega

theorem posRate_le_posWeight (p : LockPos) : posRate p ≤ posWeight p := by
  rcases p with ⟨amt, e⟩
  rcases e with _ | e
  · simp [posRate, posWeight]
  · simp only [posRate, posWeight]
    rw [if_neg (by omega), Nat.mul_succ]
    omega

theorem decay_posWeight (p : LockPos) :
    posWeight (decayPos p) = posWeight p - posRate p := by
  rcases p with ⟨amt, e⟩
  rcases e with _ | e
  · simp [posWeight, posRate, decayPos]
  · simp only [posWeight, posRate, decayPos]
    rw [if_neg (by omega), Nat.add_sub_cancel, Nat.mul_succ]
    omega

theorem posExpiring_le_posRate (p : LockPos) : posExpiring p ≤ posRate p := by
  rcases p with ⟨amt, e⟩
  simp only [posExpiring, posRate]
  rcases e with _ | _ | e <;> simp

theorem decay_posRate (p : LockPos) :
    posRate (decayPos p) = posRate p - posExpiring p := by
  rcases p with ⟨amt, e⟩
  simp only [posRate, posExpiring, decayPos]
  rcases e with _ | _ | e <;> simp

theorem posSum_decay_weight (l : List LockPos) :
    posSum (l.map decayPos) posWeight = posSum l posWeight - posSum l posRate
    ∧ posSum l posRate ≤ posSum l posWeight := by
  induction l with
  | nil => exact ⟨rfl, Nat.le_refl 0⟩
  | cons p l ih =>
      obtain ⟨ih1, ih2⟩ := ih
      have h1 := decay_posWeight p
      have h2 := posRate_le_posWeight p
      rw [List.map_cons, posSum_cons, posSum_cons, posSum_cons]
      constructor <;> omega

theorem posSum_decay_rate (l : List LockPos) :
    posSum (l.map decayPos) posRate = posSum l posRate - posSum l posExpiring
    ∧ posSum l posExpiring ≤ posSum l posRate := by
  induction l with
  | nil => exact ⟨rfl, Nat.le_refl 0⟩
  | cons p l ih =>
      obtain ⟨ih1, ih2⟩ := ih
      have h1 := decay_posRate p
      have h2 := posExpiring_le_posRate p
      rw [List.map_cons, posSum_cons, posSum_cons, posSum_cons]
      constructor <;> omega

theorem posSum_eraseIdx {l : List LockPos} {i : Nat} {p : LockPos} (f : LockPos → Nat)
    (h : l[i]? = some p) :
    posSum (l.eraseIdx i) f + f p = posSum l f := by
  induction l generalizing i with
  | nil => simp at h
  | cons q l ih =>
      cases i with
      | zero =>
          rw [List.getElem?_cons_zero] at h
          injection h with h2
          subst h2
          rw [show (q :: l).eraseIdx 0 = l from rfl, posSum_cons]
          omega
      | succ j =>
          rw [List.getElem?_cons_succ] at h
          have := ih h
          rw [show (q :: l).eraseIdx (j + 1) = q :: l.eraseIdx j from rfl,
            posSum_cons, posSum_cons]
          omega

theorem posSum_set {l : List LockPos} {i : Nat} {p : LockPos} (q : LockPos)
    (f : LockPos → Nat) (h : l[i]? = some p) :
    posSum (l.set i q) f + f p = posSum l f + f q := by
  induction l generalizing i with
  | nil => simp at h
  | cons r l ih =>
      cases i with
      | zero =>
          rw [List.getElem?_cons_zero] at h
          injection h with h2
          subst h2
          rw [show (r :: l).set 0 q = q :: l from rfl, posSum_cons, posSum_cons]
          omega
      | succ j =>
          rw [List.getElem?_cons_succ] at h
          have := ih h
          rw [show (r :: l).set (j + 1) q = r :: l.set j q from rfl,
            posSum_cons, posSum_cons]
          omega

theorem mem_of_pos_getElem {st : LockState} (inv : LedgerInv st) {a i : Nat}
    {p : LockPos} (h : (st.pos a)[i]? = some p) : a ∈ st.accounts := by
  by_contra hmem
  rw [inv.unknown_pos a hmem] at h
  simp at h

/-! ### Preservation of the ledger invariant -/

theorem lock_inv {cfg : LockCfg} {st st2 : LockState} {a amt epochs : Nat}
    (h : lock cfg st a amt epochs = .ok st2) (inv : LedgerInv st) :
    LedgerInv st2 := by
  unfold lock at h
  split at h
  · exact Except.noConfusion h
  next hdur =>
  split at h
  · exact Except.noConfusion h
  next hbal =>
  injection h with h2
  subst h2
  have hepochs : epochs ≠ 0 := fun h0 => hdur (Or.inl h0)
  refine ⟨?_, ?_, ?_, ?_, ?_, ?_, ?_⟩
  · show (if a ∈ st.accounts then st.accounts else a :: st.accounts).Nodup
    split
    · exact inv.nodup
    next hmem => exact List.nodup_cons.mpr ⟨hmem, inv.nodup⟩
  · intro x hx
    show (if x = a then LockPos.mk amt epochs :: st.pos x else st.pos x) = []
    have hsplit : x ∉ st.accounts ∧ x ≠ a := by
      by_cases hmem : a ∈ st.accounts
      · rw [if_pos hmem] at hx
        exact ⟨hx, fun hxa => hx (hxa ▸ hmem)⟩
      · rw [if_neg hmem, List.mem_cons] at hx
        push_neg at hx
        exact ⟨hx.2, hx.1⟩
    rw [if_neg hsplit.2]
    exact inv.unknown_pos x hsplit.1
  · intro x hx e
    show (if x = a ∧ e = st.curEpoch then st.acctHist x e + amt * epochs
      else st.acctHist x e) = 0
    have hsplit : x ∉ st.accounts ∧ x ≠ a := by
      by_cases hmem : a ∈ st.accounts
      · rw [if_pos hmem] at hx
        exact ⟨hx, fun hxa => hx (hxa ▸ hmem)⟩
      · rw [if_neg hmem, List.mem_cons] at hx
        push_neg at hx
        exact ⟨hx.2, hx.1⟩
    have hnc : ¬(x = a ∧ e = st.curEpoch) := fun hc => hsplit.2 hc.1
    rw [if_neg hnc]
    exact inv.unknown_hist x hsplit.1 e
  · intro x
    show (if x = a ∧ st.curEpoch = st.curEpoch then
        st.acctHist x st.curEpoch + amt * epochs else st.acctHist x st.curEpoch)
      = posSum (if x = a then LockPos.mk amt epochs :: st.pos x else st.pos x) posWeight
    by_cases hxa : x = a
    · rw [if_pos ⟨hxa, rfl⟩, if_pos hxa, posSum_cons, inv.hist_cur x]
      have hw : posWeight (LockPos.mk amt epochs) = amt * epochs := rfl
      omega
    · have hnc : ¬(x = a ∧ st.curEpoch = st.curEpoch) := fun hc => hxa hc.1
      rw [if_neg hnc, if_neg hxa]
      exact inv.hist_cur x
  · intro x
    show (if x = a then st.acctRate x + amt else st.acctRate x)
      = posSum (if x = a then LockPos.mk amt epochs :: st.pos x else st.pos x) posRate
    by_cases hxa : x = a
    · rw [if_pos hxa, if_pos hxa, posSum_cons, inv.rate_eq x]
      have hr : posRate (LockPos.mk amt epochs) = amt := if_neg hepochs
      omega
    · rw [if_neg hxa, if_neg hxa]
      exact inv.rate_eq x
  · show st.totalRate + amt
      = sumBy (if a ∈ st.accounts then st.accounts else a :: st.accounts)
        (fun x => if x = a then st.acctRate x + amt else st.acctRate x)
    by_cases hmem : a ∈ st.accounts
    · rw [if_pos hmem, sumBy_update_add inv.nodup hmem, inv.totalRate_eq]
    · rw [if_neg hmem, sumBy_cons, if_pos rfl]
      have hzero : st.acctRate a = 0 := by
        rw [inv.rate_eq a, inv.unknown_pos a hmem]
        rfl
      have hcg : sumBy st.accounts
          (fun x => if x = a then st.acctRate x + amt else st.acctRate x)
          = sumBy st.accounts st.acctRate :=
        sumBy_congr fun x hx => if_neg (fun hxa : x = a => hmem (hxa ▸ hx))
      rw [hcg, ← inv.totalRate_eq]
      omega
  · intro e he
    show (if e = st.curEpoch then st.totalHist e + amt * epochs else st.totalHist e)
      = sumBy (if a ∈ st.accounts then st.accounts else a :: st.accounts)
        (fun x => if x = a ∧ e = st.curEpoch then st.acctHist x e + amt * epochs
          else st.acctHist x e)
    by_cases hecur : e = st.curEpoch
    · have hbody : (fun x => if x = a ∧ e = st.curEpoch then
            st.acctHist x e + amt * epochs else st.acctHist x e)
          = fun x => if x = a then st.acctHist x e + amt * epochs
            else st.acctHist x e := by
        funext x
        by_cases hxa : x = a
        · rw [if_pos ⟨hxa, hecur⟩, if_pos hxa]
        · have hnc : ¬(x = a ∧ e = st.curEpoch) := fun hc => hxa hc.1
          rw [if_neg hnc, if_neg hxa]
      rw [hbody, if_pos hecur]
      by_cases hmem : a ∈ st.accounts
      · rw [if_pos hmem, sumBy_update_add inv.nodup hmem, inv.total_eq e he]
      · rw [if_neg hmem, sumBy_cons, if_pos rfl, inv.unknown_hist a hmem e]
        have hcg : sumBy st.accounts
            (fun x => if x = a then st.acctHist x e + amt * epochs
              else st.acctHist x e)
            = sumBy st.accounts (fun x => st.acctHist x e) :=
          sumBy_congr fun x hx => if_neg (fun hxa : x = a => hmem (hxa ▸ hx))
        rw [hcg, inv.total_eq e he]
        omega
    · have hbody : (fun x => if x = a ∧ e = st.curEpoch then
            st.acctHist x e + amt * epochs else st.acctHist x e)
          = fun x => st.acctHist x e := by
        funext x
        exact if_neg (fun hc => hecur hc.2)
      rw [hbody, if_neg hecur]
      by_cases hmem : a ∈ st.accounts
      · rw [if_pos hmem]
        exact inv.total_eq e he
      · rw [if_neg hmem, sumBy_cons, inv.unknown_hist a hmem e, inv.total_eq e he]
        omega

theorem posRate_le_amount (p : LockPos) : posRate p ≤ p.amount := by
  unfold posRate
  split <;> omega

theorem extend_inv {cfg : LockCfg} {st st2 : LockState} {a i newEpochs : Nat}
    (h : extendLock cfg st a i newEpochs = .ok st2) (inv : LedgerInv st) :
    LedgerInv st2 := by
  unfold extendLock at h
  split at h
  · exact Except.noConfusion h
  next p heq =>
  split at h
  · exact Except.noConfusion h
  next hcond =>
  injection h with h2
  subst h2
  have hlt : p.epochsToUnlock < newEpochs := by omega
  have hnew0 : newEpochs ≠ 0 := by omega
  have ha : a ∈ st.accounts := mem_of_pos_getElem inv heq
  refine ⟨?_, ?_, ?_, ?_, ?_, ?_, ?_⟩
  · exact inv.nodup
  · intro x hx
    show (if x = a then (st.pos x).set i (LockPos.mk p.amount newEpochs)
      else st.pos x) = []
    have hne : x ≠ a := fun hxa => hx (hxa ▸ ha)
    rw [if_neg hne]
    exact inv.unknown_pos x hx
  · intro x hx e
    show (if x = a ∧ e = st.curEpoch then
        st.acctHist x e + p.amount * (newEpochs - p.epochsToUnlock)
      else st.acctHist x e) = 0
    have hne : x ≠ a := fun hxa => hx (hxa ▸ ha)
    have hnc : ¬(x = a ∧ e = st.curEpoch) := fun hc => hne hc.1
    rw [if_neg hnc]
    exact inv.unknown_hist x hx e
  · intro x
    show (if x = a ∧ st.curEpoch = st.curEpoch then
        st.acctHist x st.curEpoch + p.amount * (newEpochs - p.epochsToUnlock)
      else st.acctHist x st.curEpoch)
      = posSum (if x = a then (st.pos x).set i (LockPos.mk p.amount newEpochs)
        else st.pos x) posWeight
    by_cases hxa : x = a
    · rw [if_pos ⟨hxa, rfl⟩, if_pos hxa, hxa, inv.hist_cur a]
      have hset := posSum_set (LockPos.mk p.amount newEpochs) posWeight heq
      have hq : posWeight (LockPos.mk p.amount newEpochs) = p.amount * newEpochs := rfl
      have hp : posWeight p = p.amount * p.epochsToUnlock := rfl
      have hmul : p.amount * newEpochs
          = p.amount * (newEpochs - p.epochsToUnlock) + p.amount * p.epochsToUnlock := by
        rw [← Nat.mul_add]
        congr 1
        omega
      omega
    · have hnc : ¬(x = a ∧ st.curEpoch = st.curEpoch) := fun hc => hxa hc.1
      rw [if_neg hnc, if_neg hxa]
      exact inv.hist_cur x
  · intro x
    show (if x = a then st.acctRate x + (p.amount - posRate p) else st.acctRate x)
      = posSum (if x = a then (st.pos x).set i (LockPos.mk p.amount newEpochs)
        else st.pos x) posRate
    by_cases hxa : x = a
    · rw [if_pos hxa, if_pos hxa, hxa, inv.rate_eq a]
      have hset := posSum_set (LockPos.mk p.amount newEpochs) posRate heq
      have hq : posRate (LockPos.mk p.amount newEpochs) = p.amount := if_neg hnew0
      have hple := posRate_le_amount p
      omega
    · rw [if_neg hxa, if_neg hxa]
      exact inv.rate_eq x
  · show st.totalRate + (p.amount - posRate p)
      = sumBy st.accounts
        (fun x => if x = a then st.acctRate x + (p.amount - posRate p)
          else st.acctRate x)
    rw [sumBy_update_add inv.nodup ha, inv.totalRate_eq]
  · intro e he
    show (if e = st.curEpoch then
        st.totalHist e + p.amount * (newEpochs - p.epochsToUnlock) else st.totalHist e)
      = sumBy st.accounts
        (fun x => if x = a ∧ e = st.curEpoch then
          st.acctHist x e + p.amount * (newEpochs - p.epochsToUnlock)
          else st.acctHist x e)
    by_cases hecur : e = st.curEpoch
    · have hbody : (fun x => if x = a ∧ e = st.curEpoch then
            st.acctHist x e + p.amount * (newEpochs - p.epochsToUnlock)
            else st.acctHist x e)
          = fun x => if x = a then
            st.acctHist x e + p.amount * (newEpochs - p.epochsToUnlock)
            else st.acctHist x e := by
        funext x
        by_cases hxa : x = a
        · rw [if_pos ⟨hxa, hecur⟩, if_pos hxa]
        · have hnc : ¬(x = a ∧ e = st.curEpoch) := fun hc => hxa hc.1
          rw [if_neg hnc, if_neg hxa]
      rw [hbody, if_pos hecur, sumBy_update_add inv.nodup ha, inv.total_eq e he]
    · have hbody : (fun x => if x = a ∧ e = st.curEpoch then
            st.acctHist x e + p.amount * (newEpochs - p.epochsToUnlock)
            else st.acctHist x e)
          = fun x => st.acctHist x e := by
        funext x
        exact if_neg (fun hc => hecur hc.2)
      rw [hbody, if_neg hecur]
      exact inv.total_eq e he

theorem withdraw_inv {cfg : LockCfg} {st st2 : LockState} {a i ret : Nat}
    (h : withdraw cfg st a i = .ok (ret, st2)) (inv : LedgerInv st) :
    LedgerInv st2 := by
  unfold withdraw at h
  split at h
  · exact Except.noConfusion h
  next p heq =>
  have ha : a ∈ st.accounts := mem_of_pos_getElem inv heq
  split at h
  next h0 =>
    -- fully decayed position: weight and rates untouched
    injection h with h2
    injection h2 with h3 h4
    subst h4
    refine ⟨inv.nodup, ?_, inv.unknown_hist, ?_, ?_, inv.totalRate_eq, inv.total_eq⟩
    · intro x hx
      show (if x = a then (st.pos x).eraseIdx i else st.pos x) = []
      have hne : x ≠ a := fun hxa => hx (hxa ▸ ha)
      rw [if_neg hne]
      exact inv.unknown_pos x hx
    · intro x
      show st.acctHist x st.curEpoch
        = posSum (if x = a then (st.pos x).eraseIdx i else st.pos x) posWeight
      by_cases hxa : x = a
      · rw [if_pos hxa, hxa, inv.hist_cur a]
        have herase := posSum_eraseIdx posWeight heq
        have hz : posWeight p = 0 := by simp [posWeight, h0]
        omega
      · rw [if_neg hxa]
        exact inv.hist_cur x
    · intro x
      show st.acctRate x
        = posSum (if x = a then (st.pos x).eraseIdx i else st.pos x) posRate
      by_cases hxa : x = a
      · rw [if_pos hxa, hxa, inv.rate_eq a]
        have herase := posSum_eraseIdx posRate heq
        have hz : posRate p = 0 := if_pos h0
        omega
      · rw [if_neg hxa]
        exact inv.rate_eq x
  next h0 =>
  split at h
  next hpen =>
    -- penalised early withdrawal: the position's remaining weight is removed
    injection h with h2
    injection h2 with h3 h4
    subst h4
    have hrp : posRate p = p.amount := if_neg h0
    have herw := posSum_eraseIdx posWeight heq
    have herr := posSum_eraseIdx posRate heq
    refine ⟨?_, ?_, ?_, ?_, ?_, ?_, ?_⟩
    · exact inv.nodup
    · intro x hx
      show (if x = a then (st.pos x).eraseIdx i else st.pos x) = []
      have hne : x ≠ a := fun hxa => hx (hxa ▸ ha)
      rw [if_neg hne]
      exact inv.unknown_pos x hx
    · intro x hx e
      show (if x = a ∧ e = st.curEpoch then st.acctHist x e - posWeight p
        else st.acctHist x e) = 0
      have hne : x ≠ a := fun hxa => hx (hxa ▸ ha)
      have hnc : ¬(x = a ∧ e = st.curEpoch) := fun hc => hne hc.1
      rw [if_neg hnc]
      exact inv.unknown_hist x hx e
    · intro x
      show (if x = a ∧ st.curEpoch = st.curEpoch then
          st.acctHist x st.curEpoch - posWeight p else st.acctHist x st.curEpoch)
        = posSum (if x = a then (st.pos x).eraseIdx i else st.pos x) posWeight
      by_cases hxa : x = a
      · rw [if_pos ⟨hxa, rfl⟩, if_pos hxa, hxa, inv.hist_cur a]
        omega
      · have hnc : ¬(x = a ∧ st.curEpoch = st.curEpoch) := fun hc => hxa hc.1
        rw [if_neg hnc, if_neg hxa]
        exact inv.hist_cur x
    · intro x
      show (if x = a then st.acctRate x - p.amount else st.acctRate x)
        = posSum (if x = a then (st.pos x).eraseIdx i else st.pos x) posRate
      by_cases hxa : x = a
      · rw [if_pos hxa, if_pos hxa, hxa, inv.rate_eq a]
        omega
      · rw [if_neg hxa, if_neg hxa]
        exact inv.rate_eq x
    · show st.totalRate - p.amount
        = sumBy st.accounts
          (fun x => if x = a then st.acctRate x - p.amount else st.acctRate x)
      have hd : p.amount ≤ st.acctRate a := by
        rw [inv.rate_eq a]
        omega
      rw [sumBy_update_sub inv.nodup ha hd, inv.totalRate_eq]
    · intro e he
      show (if e = st.curEpoch then st.totalHist e - posWeight p else st.totalHist e)
        = sumBy st.accounts
          (fun x => if x = a ∧ e = st.curEpoch then st.acctHist x e - posWeight p
            else st.acctHist x e)
      by_cases hecur : e = st.curEpoch
      · have hbody : (fun x => if x = a ∧ e = st.curEpoch then
              st.acctHist x e - posWeight p else st.acctHist x e)
            = fun x => if x = a then st.acctHist x e - posWeight p
              else st.acctHist x e := by
          funext x
          by_cases hxa : x = a
          · rw [if_pos ⟨hxa, hecur⟩, if_pos hxa]
          · have hnc : ¬(x = a ∧ e = st.curEpoch) := fun hc => hxa hc.1
            rw [if_neg hnc, if_neg hxa]
        have hd : posWeight p ≤ st.acctHist a e := by
          rw [hecur, inv.hist_cur a]
          omega
        rw [hbody, if_pos hecur, sumBy_update_sub inv.nodup ha hd, inv.total_eq e he]
      · have hbody : (fun x => if x = a ∧ e = st.curEpoch then
              st.acctHist x e - posWeight p else st.acctHist x e)
            = fun x => st.acctHist x e := by
          funext x
          exact if_neg (fun hc => hecur hc.2)
        rw [hbody, if_neg hecur]
        exact inv.total_eq e he
  next hpen => exact Except.noConfusion h

theorem advance_inv {st : LockState} (inv : LedgerInv st) :
    LedgerInv (advanceEpoch st) := by
  refine ⟨?_, ?_, ?_, ?_, ?_, ?_, ?_⟩
  · exact inv.nodup
  · intro x hx
    show (st.pos x).map decayPos = []
    rw [inv.unknown_pos x hx]
    rfl
  · intro x hx e
    show (if e = st.curEpoch + 1 then st.acctHist x st.curEpoch - st.acctRate x
      else st.acctHist x e) = 0
    by_cases he1 : e = st.curEpoch + 1
    · rw [if_pos he1, inv.unknown_hist x hx st.curEpoch]
      have hz : st.acctRate x = 0 := by
        rw [inv.rate_eq x, inv.unknown_pos x hx]
        rfl
      omega
    · rw [if_neg he1]
      exact inv.unknown_hist x hx e
  · intro x
    show (if st.curEpoch + 1 = st.curEpoch + 1 then
        st.acctHist x st.curEpoch - st.acctRate x
      else st.acctHist x (st.curEpoch + 1))
      = posSum ((st.pos x).map decayPos) posWeight
    rw [if_pos rfl, inv.hist_cur x, inv.rate_eq x]
    obtain ⟨hw, hle⟩ := posSum_decay_weight (st.pos x)
    omega
  · intro x
    show st.acctRate x - posSum (st.pos x) posExpiring
      = posSum ((st.pos x).map decayPos) posRate
    rw [inv.rate_eq x]
    obtain ⟨hr, hle⟩ := posSum_decay_rate (st.pos x)
    omega
  · show st.totalRate - sumBy st.accounts (fun x => posSum (st.pos x) posExpiring)
      = sumBy st.accounts (fun x => st.acctRate x - posSum (st.pos x) posExpiring)
    have hpt : ∀ x ∈ st.accounts, posSum (st.pos x) posExpiring ≤ st.acctRate x := by
      intro x _
      rw [inv.rate_eq x]
      exact (posSum_decay_rate (st.pos x)).2
    rw [inv.totalRate_eq]
    exact (sumBy_sub hpt).1.symm
  · intro e he
    show (if e = st.curEpoch + 1 then st.totalHist st.curEpoch - st.totalRate
      else st.totalHist e)
      = sumBy st.accounts
        (fun x => if e = st.curEpoch + 1 then
          st.acctHist x st.curEpoch - st.acctRate x else st.acctHist x e)
    by_cases he1 : e = st.curEpoch + 1
    · have hbody : (fun x => if e = st.curEpoch + 1 then
            st.acctHist x st.curEpoch - st.acctRate x else st.acctHist x e)
          = fun x => st.acctHist x st.curEpoch - st.acctRate x := by
        funext x
        exact if_pos he1
      rw [hbody, if_pos he1]
      have hpt : ∀ x ∈ st.accounts, st.acctRate x ≤ st.acctHist x st.curEpoch := by
        intro x _
        rw [inv.rate_eq x, inv.hist_cur x]
        exact (posSum_decay_weight (st.pos x)).2
      rw [inv.total_eq st.curEpoch (Nat.le_refl _), inv.totalRate_eq]
      exact (sumBy_sub hpt).1.symm
    · have hbody : (fun x => if e = st.curEpoch + 1 then
            st.acctHist x st.curEpoch - st.acctRate x else st.acctHist x e)
          = fun x => st.acctHist x e := by
        funext x
        exact if_neg he1
      rw [hbody, if_neg he1]
      have he2 : e ≤ st.curEpoch := by
        have : e ≤ st.curEpoch + 1 := he
        omega
      exact inv.total_eq e he2

theorem init_inv (bal : Nat → Nat) : LedgerInv (initState bal) :=
  ⟨List.nodup_nil, fun _ _ => rfl, fun _ _ _ => rfl, fun _ => rfl, fun _ => rfl,
    rfl, fun _ _ => rfl⟩

theorem step_inv {cfg : LockCfg} {st st2 : LockState}
    (h : Step cfg st st2) (inv : LedgerInv st) : LedgerInv st2 := by
  cases h with
  | lock _ _ _ _ h => exact lock_inv h inv
  | extend _ _ _ _ h => exact extend_inv h inv
  | withdraw _ _ _ _ h => exact withdraw_inv h inv
  | advance => exact advance_inv inv

theorem reachable_inv {cfg : LockCfg} {bal : Nat → Nat} {st : LockState}
    (h : Reachable cfg bal st) : LedgerInv st := by
  induction h with
  | init => exact init_inv bal
  | step st st2 h1 h2 ih => exact step_inv h2 ih

/-- C4: in every ledger state reachable by lock, extend, withdraw and
epoch-decay operations, and for every recorded epoch `e`, the total weight in
the global weight history equals the sum over all accounts of that account's
weight at `e`: `totalWeightAt(e) = Σ accounts, weightAt(account, e)`. -/
theorem totalWeight_eq_sum_weights {cfg : LockCfg} {bal : Nat → Nat}
    {st : LockState} (h : Reachable cfg bal st) (e : Nat)
    (he : e ≤ st.curEpoch) :
    totalWeightAt st e
      = Except.ok (sumBy st.accounts fun a => (weightAt st a e).toOption.getD 0) := by
  have inv := reachable_inv h
  unfold totalWeightAt weightAt
  rw [if_neg (by omega)]
  have hcg : (sumBy st.accounts fun a =>
      ((if st.curEpoch < e then Except.error LockErr.FutureEpoch
        else Except.ok (st.acctHist a e)).toOption.getD 0))
      = sumBy st.accounts fun a => st.acctHist a e := by
    refine sumBy_congr fun a _ => ?_
    rw [if_neg (by omega)]
    rfl
  rw [hcg, inv.total_eq e he]

/-- A concrete ledger configuration: 52-epoch maximum lock, penalties on. -/
def cfg0 : LockCfg := ⟨52, true⟩

/-- Concrete initial balances. -/
def bal0 : Nat → Nat := fun _ => 1000

/-- The state after account 1 locks 100 tokens for 5 epochs at epoch 0. -/
def wit_st1 : LockState :=
  match lock cfg0 (initState bal0) 1 100 5 with
  | .ok s => s
  | .error _ => initState bal0

/-- The state after one further epoch of decay. -/
def wit_st2 : LockState := advanceEpoch wit_st1

/-- Witness for C4: the invariant evaluated at epoch 1 of a concrete
two-operation history (one lock, one epoch-decay). -/
theorem totalWeight_eq_sum_weights_witness :
    totalWeightAt wit_st2 1
      = Except.ok (sumBy wit_st2.accounts fun a =>
          (weightAt wit_st2 a 1).toOption.getD 0) := by
  have hlock : lock cfg0 (initState bal0) 1 100 5 = Except.ok wit_st1 := rfl
  exact totalWeight_eq_sum_weights
    (Reachable.step wit_st1 wit_st2
      (Reachable.step (initState bal0) wit_st1 Reachable.init
        (Step.lock (initState bal0) wit_st1 1 100 5 hlock))
      (Step.advance wit_st1)) 1 (by decide)

end VeToken
